import Mathlib

/-!
Verification of the Server-Timing header codec of the go-server-timing
repository.

The development shallowly embeds:

* `ParseHeader` from `header.go`, together with the list/parameter parsing
  routines of the vendored dependency `github.com/golang/gddo/httputil/header`
  (`ParseList`, `ParseValueAndParams`, `expectToken`, `expectTokenSlash`,
  `expectTokenOrQuoted`, `skipSpace` and the `octetTypes` character classes)
  that `ParseHeader` calls, and `strconv.Atoi` which it uses for the `dur`
  parameter;
* the `Metric` / `Header` data model (`*Metric` pointers become plain values;
  the Go `map[string]string` becomes an association list in insertion order);
* the serializer: `Header.String`, which in the provided `header.go` is the
  stub `func (h *Header) String() string { return "" }`, and the per-metric
  encoder `Metric.String` present in the provided sources, whose helper
  `headerEncodeParam` is defined in no provided file and is therefore
  modelled from the spec (see `headerEncodeParam` below).

Strings are processed as `List Char`; `String` wrappers sit at the API
boundary.  Go's `int64`-based `time.Duration` is embedded as `Int` with
explicit two's-complement wrapping where the code can overflow.
-/

namespace ServerTiming

/-- Character classes of the `octetTypes` table of the gddo `httputil/header`
package: a byte is a CTL when it is `0..31` or `127`. -/
def isCtlByte (n : Nat) : Bool := n ≤ 31 || n == 127

/-- The RFC7230 separator characters, exactly the string
`" \t\"(),/:;<=>?@[]\\"` plus the two curly braces used in `octetTypes`. -/
def separatorChars : List Char :=
  [' ', '\t', '"', '(', ')', ',', '/', ':', ';', '<', '=', '>', '?', '@',
   '[', ']', '\\', '\x7b', '\x7d']

/-- A token character: any US-ASCII character that is neither a CTL nor a
separator (the `isToken` bit of `octetTypes`). -/
def isTokenChar (c : Char) : Bool :=
  decide (c.toNat ≤ 127) && !isCtlByte c.toNat && !separatorChars.contains c

/-- A whitespace character (the `isSpace` bit of `octetTypes`): one of
space, tab, carriage return, line feed. -/
def isSpaceChar (c : Char) : Bool :=
  c = ' ' || c = '\t' || c = '\r' || c = '\n'

/-- Core loop of gddo `header.ParseList`, one character at a time.
The Go original walks the string with `begin`/`end` slice indices; here
`cur` holds the committed characters of the current element (reversed) and
`pend` holds whitespace seen since the last committed character (included
only if further content follows, which reproduces the slice semantics:
leading and trailing whitespace is trimmed, interior whitespace kept).
Characters inside double quotes, including the quotes and backslash
escapes, are committed verbatim; a comma splits elements only outside
quotes; empty elements are skipped. -/
def parseListCore : List Char → Bool → Bool → List Char → List Char →
    List (List Char) → List (List Char)
  | [], _, _, cur, _, acc =>
      if cur = [] then acc else acc ++ [cur.reverse]
  | c :: rest, true, q, cur, pend, acc =>
      parseListCore rest false q (c :: (pend ++ cur)) [] acc
  | c :: rest, false, true, cur, pend, acc =>
      if c = '\\' then parseListCore rest true true (c :: (pend ++ cur)) [] acc
      else parseListCore rest false (c ≠ '"') (c :: (pend ++ cur)) [] acc
  | c :: rest, false, false, cur, pend, acc =>
      if c = '"' then parseListCore rest false true (c :: (pend ++ cur)) [] acc
      else if isSpaceChar c then
        if cur = [] then parseListCore rest false false [] [] acc
        else parseListCore rest false false cur (c :: pend) acc
      else if c = ',' then
        if cur = [] then parseListCore rest false false [] [] acc
        else parseListCore rest false false [] [] (acc ++ [cur.reverse])
      else parseListCore rest false false (c :: (pend ++ cur)) [] acc

/-- gddo `header.ParseList` applied to a single header value (the
`headerParams` helper of `header.go` always supplies exactly one value). -/
def parseList (s : List Char) : List (List Char) :=
  parseListCore s false false [] [] []

/-- gddo `skipSpace`: drop leading whitespace. -/
def skipSpace (s : List Char) : List Char := s.dropWhile isSpaceChar

/-- gddo `expectToken`: split off the longest prefix of token characters. -/
def expectToken (s : List Char) : List Char × List Char :=
  (s.takeWhile isTokenChar, s.dropWhile isTokenChar)

/-- gddo `expectTokenSlash`: like `expectToken` but also accepting `/`. -/
def expectTokenSlash (s : List Char) : List Char × List Char :=
  (s.takeWhile fun c => isTokenChar c || c = '/',
   s.dropWhile fun c => isTokenChar c || c = '/')

/-- Scanner for the inside of a quoted string, after the opening quote:
a backslash escapes the next character, a bare quote terminates, any other
character is taken literally; a missing closing quote fails.  This is the
behaviour of the quoted branch of gddo `expectTokenOrQuoted` (including its
two-phase implementation, whose observable result is exactly this). -/
def unquote : List Char → Option (List Char × List Char)
  | [] => none
  | '"' :: rest => some ([], rest)
  | '\\' :: [] => none
  | '\\' :: c :: rest => (unquote rest).map fun p => (c :: p.1, p.2)
  | c :: rest => (unquote rest).map fun p => (c :: p.1, p.2)

/-- gddo `expectTokenOrQuoted`: a value is either a bare token or a
double-quoted string; an unterminated quoted string yields `("","")`. -/
def expectTokenOrQuoted (s : List Char) : List Char × List Char :=
  match s with
  | '"' :: rest =>
      match unquote rest with
      | some p => p
      | none => ([], [])
  | _ => expectToken s

/-- ASCII lower-casing, the effect of Go `strings.ToLower` on the ASCII
header data handled here. -/
def goToLower (s : List Char) : List Char := s.map Char.toLower

/-- Insert into an association list the way a Go `map[string]string`
assignment behaves, with iteration order modelled as insertion order:
replace the existing binding in place, otherwise append. -/
def assocSet (ps : List (List Char × List Char)) (k v : List Char) :
    List (List Char × List Char) :=
  if ps.any fun p => p.1 = k then
    ps.map fun p => if p.1 = k then (k, v) else p
  else ps ++ [(k, v)]

/-- The parameter loop of gddo `ParseValueAndParams`: repeatedly consume
`;`, optional whitespace, a token key, `=`, and a token-or-quoted value;
any deviation stops the loop, keeping the parameters collected so far.
Keys are lower-cased.  `fuel` only bounds recursion depth; every
iteration consumes at least one character, so `s.length + 1` fuel is
always sufficient (`parseParamsCore_fuel` below). -/
def parseParamsCore : Nat → List Char → List (List Char × List Char) →
    List (List Char × List Char)
  | 0, _, params => params
  | fuel + 1, s, params =>
      match s with
      | ';' :: s0 =>
          let kr := expectToken (skipSpace s0)
          if kr.1 = [] then params
          else
            match kr.2 with
            | '=' :: s2 =>
                let vr := expectTokenOrQuoted s2
                if vr.1 = [] then params
                else parseParamsCore fuel (skipSpace vr.2)
                    (assocSet params (goToLower kr.1) vr.1)
            | _ => params
      | _ => params

/-- gddo `ParseValueAndParams`: a leading token-or-slash value (lower-cased;
empty value aborts with no parameters), then the parameter loop. -/
def ParseValueAndParams (s : List Char) :
    List Char × List (List Char × List Char) :=
  let vr := expectTokenSlash s
  if vr.1 = [] then ([], [])
  else (goToLower vr.1, parseParamsCore (vr.2.length + 1) (skipSpace vr.2) [])

/-- Numeric value of a decimal digit character. -/
def digitVal (c : Char) : Option Nat :=
  if '0' ≤ c ∧ c ≤ '9' then some (c.toNat - 48) else none

/-- Parse a non-empty all-digit string as a natural number. -/
def digitsToNat (ds : List Char) : Option Nat :=
  if ds = [] then none
  else ds.foldl (fun acc c => acc.bind fun a => (digitVal c).map fun d => a * 10 + d)
    (some 0)

/-- Go `strconv.Atoi` on a 64-bit platform: optional sign, then decimal
digits only; empty input, stray characters and `int64` overflow all fail
(failure is what `ParseHeader` observes, so the clamped value Go would
also return is not modelled). -/
def Atoi (s : List Char) : Option Int :=
  match s with
  | [] => none
  | c :: rest =>
      if c = '-' then
        (digitsToNat rest).bind fun n =>
          if (n : Int) ≤ 2 ^ 63 then some (-(n : Int)) else none
      else if c = '+' then
        (digitsToNat rest).bind fun n =>
          if (n : Int) ≤ 2 ^ 63 - 1 then some ((n : Int)) else none
      else
        (digitsToNat (c :: rest)).bind fun n =>
          if (n : Int) ≤ 2 ^ 63 - 1 then some ((n : Int)) else none

/-- Two's-complement wrap into `int64`, for Go arithmetic that may
overflow. -/
def wrap64 (n : Int) : Int := (n + 2 ^ 63) % 2 ^ 64 - 2 ^ 63

/-- Go `time.Duration(a) * time.Millisecond`: `int64` multiplication with
silent wrap-around. -/
def goMulMilli (a : Int) : Int := wrap64 (a * 1000000)

/-- `Metric` of `header.go`.  `Duration` is Go's `time.Duration`, an
`int64` count of nanoseconds; `Extra` is the `map[string]string` of extra
parameters, embedded as an association list in insertion order. -/
structure Metric where
  Name : String
  Duration : Int
  Desc : String
  Extra : List (String × String)
deriving DecidableEq

/-- `Header` of `header.go`: the ordered list of metrics (`[]*Metric`,
with pointers embedded as values). -/
structure Header where
  Metrics : List Metric
deriving DecidableEq

/-- `paramNameDesc` of `header.go`. -/
def paramNameDesc : String := "desc"

/-- `paramNameDur` of `header.go`. -/
def paramNameDur : String := "dur"

/-- Lookup in the embedded `map[string]string`. -/
def extraLookup (ps : List (String × String)) (k : String) : Option String :=
  (ps.find? fun p => p.1 = k).map fun p => p.2

/-- Deletion from the embedded `map[string]string`. -/
def eraseKey (ps : List (String × String)) (k : String) :
    List (String × String) :=
  ps.filter fun p => p.1 ≠ k

/-- The body of the `for _, raw := range rawMetrics` loop of `ParseHeader`:
parse one comma-separated element with `ParseValueAndParams`, move a
`desc` parameter into the `Desc` field, and move a `dur` parameter into
the `Duration` field (milliseconds) when `strconv.Atoi` accepts it,
leaving it in `Extra` otherwise. -/
def parseMetricRaw (raw : List Char) : Metric :=
  let vp := ParseValueAndParams raw
  let m0 : Metric :=
    { Name := vp.1.asString, Duration := 0, Desc := "",
      Extra := vp.2.map fun p => (p.1.asString, p.2.asString) }
  let m1 : Metric :=
    match extraLookup m0.Extra paramNameDesc with
    | some v => { m0 with Desc := v, Extra := eraseKey m0.Extra paramNameDesc }
    | none => m0
  match extraLookup m1.Extra paramNameDur with
  | some v =>
      match Atoi v.data with
      | some intv =>
          { m1 with Duration := goMulMilli intv,
                    Extra := eraseKey m1.Extra paramNameDur }
      | none => m1
  | none => m1

/-- `ParseHeader` of `header.go`: split the comma-separated list, parse
each element, and return the header together with the (always `nil`)
error. -/
def ParseHeader (input : String) : Header × Option String :=
  let rawMetrics := parseList input.data
  let metrics := rawMetrics.foldl (fun acc raw => acc ++ [parseMetricRaw raw]) []
  ({ Metrics := metrics }, none)

/-- Representation of a `Metric` value, standing in for the Go
`fmt.Sprintf("%#v", *m)` rendering used by `GoString`; its exact shape is
irrelevant to the claims, which concern the `nil` receiver. -/
def metricGoRepr (m : Metric) : String :=
  "servertiming.Metric(" ++ m.Name ++ ")"

/-- `Metric.GoString` of `header.go`: a `nil` receiver yields the string
`nil`, any other receiver yields `*` followed by the struct rendering.
The Go `*Metric` pointer is embedded as `Option Metric` with `none` for
`nil`. -/
def MetricGoString (m : Option Metric) : String :=
  match m with
  | none => "nil"
  | some m => "*" ++ metricGoRepr m

/-- Modelled from the spec: a component of `headerEncodeParam`, which the
provided `Metric.String` calls but no provided file defines.  Spec §6: a
value is emitted as a bare token when every character lies in the RFC7230
token grammar, and as a quoted-string otherwise; `needsQuoting` decides
which. -/
def needsQuoting (v : String) : Bool := !(v.data.all isTokenChar)

/-- Backslash-escape the characters that RFC7230 quoted-strings cannot
carry bare, namely `"` and `\`. -/
def escapeQuoted : List Char → List Char
  | [] => []
  | c :: rest =>
      if c = '"' || c = '\\' then '\\' :: c :: escapeQuoted rest
      else c :: escapeQuoted rest

/-- Modelled from the spec (§6): RFC7230 quoted-string form of a value. -/
def quoteValue (v : String) : String :=
  ('"' :: (escapeQuoted v.data ++ ['"'])).asString

/-- Modelled from the spec (§6): bare token or quoted-string, chosen by
whether the raw value contains characters outside the token grammar. -/
def encodeValue (v : String) : String :=
  if needsQuoting v then quoteValue v else v

/-- Modelled from the spec (§4.2 serialize, §6): `headerEncodeParam`, the
one serializer helper that the provided `Metric.String` calls but that no
provided file defines: one `key=value` parameter with the value encoded
per §6 (bare token, else quoted-string). -/
def headerEncodeParam (k v : String) : String := k ++ "=" ++ encodeValue v

/-- Decimal digits of a natural number, most significant first; the first
argument is recursion fuel (any value above the number itself suffices). -/
def natDecAux : Nat → Nat → List Char → List Char
  | 0, _, acc => acc
  | fuel + 1, n, acc =>
      if n = 0 then acc
      else natDecAux fuel (n / 10) (Char.ofNat (48 + n % 10) :: acc)

/-- Decimal rendering of a natural number. -/
def natDecimal (n : Nat) : List Char :=
  if n = 0 then ['0'] else natDecAux (n + 1) n []

/-- Go `strconv.Itoa` on a 64-bit platform: decimal rendering of an
integer, with a leading minus sign when it is negative. -/
def Itoa (n : Int) : String :=
  (if n < 0 then '-' :: natDecimal n.natAbs else natDecimal n.natAbs).asString

/-- Go `m.Duration / time.Millisecond`: `int64` division of a nanosecond
count by `10 ^ 6`, truncating toward zero as Go integer division does. -/
def durationMillis (d : Int) : Int := Int.tdiv d 1000000

/-- Join parts with a single separator character (`strings.Join`). -/
def joinParts (sep : Char) : List (List Char) → List Char
  | [] => []
  | p :: ps => p ++ ps.flatMap fun q => sep :: q

/-- The `parts` slice built by `Metric.String` of the provided sources:
the name; `desc=` with the encoded description when `Extra` has no `desc`
key and the description is nonempty; `dur=` with the truncated
millisecond count when `Extra` has no `dur` key and the duration is
positive; then every extra parameter in map order. -/
def MetricStringParts (m : Metric) : List String :=
  [m.Name]
    ++ (if extraLookup m.Extra paramNameDesc = none ∧ m.Desc ≠ "" then
          [headerEncodeParam paramNameDesc m.Desc] else [])
    ++ (if extraLookup m.Extra paramNameDur = none ∧ 0 < m.Duration then
          [headerEncodeParam paramNameDur (Itoa (durationMillis m.Duration))]
        else [])
    ++ m.Extra.map fun p => headerEncodeParam p.1 p.2

/-- `Metric.String` of the provided sources: the parts joined by `;`. -/
def MetricString (m : Metric) : String :=
  (joinParts ';' ((MetricStringParts m).map String.data)).asString

/-- `Header.String` exactly as the provided `header.go` has it: the stub
that returns the empty string. -/
def HeaderStringSrc (_h : Header) : String := ""

/-- Abstract run of the `parseListCore` quoting automaton: final
`(escape, quote)` state after a string, or `none` if a whitespace
character or a comma is ever met outside quotes (the only places where
`parseListCore` does something other than committing the character). -/
def scanOk : List Char → Bool → Bool → Option (Bool × Bool)
  | [], esc, q => some (esc, q)
  | _ :: rest, true, q => scanOk rest false q
  | c :: rest, false, true =>
      if c = '\\' then scanOk rest true true
      else scanOk rest false (c ≠ '"')
  | c :: rest, false, false =>
      if c = '"' then scanOk rest false true
      else if isSpaceChar c || c = ',' then none
      else scanOk rest false false

/-- `encodeValue` at the character-list level. -/
def encValL (v : List Char) : List Char :=
  if v.all isTokenChar then v else '"' :: (escapeQuoted v ++ ['"'])

/-- One raw (decoded) parameter as it is laid out on the wire:
`;key=encoded-value`. -/
def encPair (pr : List Char × List Char) : List Char :=
  ';' :: (pr.1 ++ '=' :: encValL pr.2)

/-- A whole raw parameter list on the wire. -/
def paramsFlatEnc (prs : List (List Char × List Char)) : List Char :=
  prs.flatMap encPair

/-- Association lookup at the character-list level. -/
def lookupL (ps : List (List Char × List Char)) (k : List Char) :
    Option (List Char) :=
  (ps.find? fun p => p.1 = k).map fun p => p.2

end ServerTiming

namespace ServerTiming

theorem foldl_append_eq_map {α β : Type} (f : α → β) (l : List α)
    (acc : List β) : l.foldl (fun a r => a ++ [f r]) acc = acc ++ l.map f := by
  induction l generalizing acc with
  | nil => simp
  | cons r l ih => simp [ih]

theorem parseHeader_metrics_eq (input : String) :
    (ParseHeader input).1.Metrics = (parseList input.data).map parseMetricRaw := by
  simp [ParseHeader, foldl_append_eq_map]

theorem extraLookup_cons (p : String × String) (ps : List (String × String))
    (k : String) :
    extraLookup (p :: ps) k = if p.1 = k then some p.2 else extraLookup ps k := by
  unfold extraLookup
  by_cases h : p.1 = k
  · rw [List.find?_cons_of_pos _ (by simp [h])]
    simp [h]
  · rw [List.find?_cons_of_neg _ (by simp [h])]
    simp [h]

theorem eraseKey_cons (p : String × String) (ps : List (String × String))
    (k : String) :
    eraseKey (p :: ps) k = if p.1 = k then eraseKey ps k else p :: eraseKey ps k := by
  by_cases h : p.1 = k <;> simp [eraseKey, List.filter_cons, h]

theorem extraLookup_eraseKey_self (ps : List (String × String)) (k : String) :
    extraLookup (eraseKey ps k) k = none := by
  induction ps with
  | nil => rfl
  | cons p ps ih =>
      rw [eraseKey_cons]
      by_cases hp : p.1 = k
      · simpa [hp] using ih
      · rw [if_neg hp, extraLookup_cons, if_neg hp]
        exact ih

theorem extraLookup_eraseKey_ne (ps : List (String × String)) (k k' : String)
    (h : k ≠ k') : extraLookup (eraseKey ps k') k = extraLookup ps k := by
  induction ps with
  | nil => rfl
  | cons p ps ih =>
      rw [eraseKey_cons, extraLookup_cons]
      by_cases hp : p.1 = k'
      · have hk : ¬p.1 = k := fun e => h (e.symm.trans hp)
        rw [if_pos hp, if_neg hk]
        exact ih
      · rw [if_neg hp, extraLookup_cons]
        by_cases hk : p.1 = k
        · simp [hk]
        · simp only [if_neg hk]
          exact ih

/-- The raw parameter map of one comma-separated element, at the `String`
level, as `ParseHeader` builds it before extracting `desc` and `dur`. -/
theorem parseMetricRaw_fields (raw : List Char) :
    extraLookup (parseMetricRaw raw).Extra paramNameDesc = none ∧
      (parseMetricRaw raw).Desc =
        ((extraLookup ((ParseValueAndParams raw).2.map fun p =>
          (p.1.asString, p.2.asString)) paramNameDesc).getD "") := by
  unfold parseMetricRaw
  set params0 : List (String × String) :=
    (ParseValueAndParams raw).2.map fun p => (p.1.asString, p.2.asString) with hparams0
  cases hdesc : extraLookup params0 paramNameDesc with
  | none =>
      cases hdur : extraLookup params0 paramNameDur with
      | none => simp [hdesc, hdur]
      | some v =>
          cases hAtoi : Atoi v.data with
          | none => simp [hdesc, hdur, hAtoi]
          | some intv =>
              simp [hdesc, hdur, hAtoi,
                extraLookup_eraseKey_ne _ paramNameDesc paramNameDur (by decide)]
  | some v =>
      cases hdur : extraLookup (eraseKey params0 paramNameDesc) paramNameDur with
      | none => simp [hdesc, hdur, extraLookup_eraseKey_self]
      | some w =>
          cases hAtoi : Atoi w.data with
          | none => simp [hdesc, hdur, hAtoi, extraLookup_eraseKey_self]
          | some intv =>
              simp [hdesc, hdur, hAtoi,
                extraLookup_eraseKey_ne _ paramNameDesc paramNameDur (by decide),
                extraLookup_eraseKey_self]

theorem length_dropWhile_le (p : Char → Bool) (s : List Char) :
    (s.dropWhile p).length ≤ s.length := by
  induction s with
  | nil => simp
  | cons c s ih =>
      by_cases h : p c
      · simp only [List.dropWhile_cons, h, if_true, List.length_cons]
        omega
      · simp [List.dropWhile_cons, h]

theorem takeWhile_append_all (p : Char → Bool) (a b : List Char)
    (ha : ∀ c ∈ a, p c = true) :
    (a ++ b).takeWhile p = a ++ b.takeWhile p := by
  induction a with
  | nil => simp
  | cons c a ih =>
      have hc := ha c (by simp)
      simp only [List.cons_append, List.takeWhile_cons, hc, if_true]
      rw [ih fun d hd => ha d (by simp [hd])]

theorem dropWhile_append_all (p : Char → Bool) (a b : List Char)
    (ha : ∀ c ∈ a, p c = true) :
    (a ++ b).dropWhile p = b.dropWhile p := by
  induction a with
  | nil => simp
  | cons c a ih =>
      have hc := ha c (by simp)
      simp only [List.cons_append, List.dropWhile_cons, hc, if_true]
      exact ih fun d hd => ha d (by simp [hd])

theorem expectToken_exact (k r : List Char)
    (hk : ∀ c ∈ k, isTokenChar c = true)
    (hr : ∀ c r', r = c :: r' → isTokenChar c = false) :
    expectToken (k ++ r) = (k, r) := by
  unfold expectToken
  rw [takeWhile_append_all _ _ _ hk, dropWhile_append_all _ _ _ hk]
  cases r with
  | nil => simp
  | cons c r' => simp [List.takeWhile_cons, List.dropWhile_cons, hr c r' rfl]

theorem expectTokenSlash_exact (k r : List Char)
    (hk : ∀ c ∈ k, (isTokenChar c || c = '/') = true)
    (hr : ∀ c r', r = c :: r' → (isTokenChar c || c = '/') = false) :
    expectTokenSlash (k ++ r) = (k, r) := by
  unfold expectTokenSlash
  rw [takeWhile_append_all _ _ _ hk, dropWhile_append_all _ _ _ hk]
  cases r with
  | nil => simp
  | cons c r' => simp [List.takeWhile_cons, List.dropWhile_cons, hr c r' rfl]

theorem skipSpace_eq_self (s : List Char)
    (h : ∀ c s', s = c :: s' → isSpaceChar c = false) : skipSpace s = s := by
  cases s with
  | nil => rfl
  | cons c s' => simp [skipSpace, List.dropWhile_cons, h c s' rfl]

theorem scanOk_append (a b : List Char) (esc q : Bool) :
    scanOk (a ++ b) esc q = (scanOk a esc q).bind fun st => scanOk b st.1 st.2 := by
  induction a generalizing esc q with
  | nil => simp [scanOk]
  | cons c a ih =>
      cases esc with
      | true => simpa [scanOk] using ih false q
      | false =>
          cases q with
          | true => by_cases hc : c = '\\' <;> simp [scanOk, hc, ih]
          | false =>
              by_cases hc : c = '"'
              · simp [scanOk, hc, ih]
              · by_cases hs : isSpaceChar c || c = ',' <;> simp [scanOk, hc, hs, ih]

theorem scanOk_flat (s : List Char)
    (h : ∀ c ∈ s, c ≠ '"' ∧ isSpaceChar c = false ∧ c ≠ ',') :
    scanOk s false false = some (false, false) := by
  induction s with
  | nil => rfl
  | cons c s ih =>
      obtain ⟨h1, h2, h3⟩ := h c (by simp)
      simp only [scanOk, if_neg h1, h2, h3]
      simp only [Bool.false_or, decide_eq_true_eq]
      rw [if_neg (by simp [h3])]
      exact ih fun d hd => h d (by simp [hd])

theorem escapeQuoted_cons_esc (c : Char) (v : List Char)
    (h : c = '"' ∨ c = '\\') :
    escapeQuoted (c :: v) = '\\' :: c :: escapeQuoted v := by
  rcases h with h | h <;> simp [escapeQuoted, h]

theorem escapeQuoted_cons_plain (c : Char) (v : List Char)
    (h1 : c ≠ '"') (h2 : c ≠ '\\') :
    escapeQuoted (c :: v) = c :: escapeQuoted v := by
  simp [escapeQuoted, h1, h2]

theorem scanOk_escaped (v : List Char) :
    scanOk (escapeQuoted v) false true = some (false, true) := by
  induction v with
  | nil => rfl
  | cons c v ih =>
      by_cases hc : c = '"' ∨ c = '\\'
      · rw [escapeQuoted_cons_esc c v hc]
        simpa [scanOk] using ih
      · push_neg at hc
        rw [escapeQuoted_cons_plain c v hc.1 hc.2]
        simpa [scanOk, hc.1, hc.2] using ih

theorem scanOk_quoted (v : List Char) :
    scanOk ('"' :: (escapeQuoted v ++ ['"'])) false false = some (false, false) := by
  have h1 : scanOk ('"' :: (escapeQuoted v ++ ['"'])) false false =
      scanOk (escapeQuoted v ++ ['"']) false true := by simp [scanOk]
  rw [h1, scanOk_append, scanOk_escaped]
  simp [scanOk]

theorem parseListCore_traverse (s : List Char) :
    ∀ rest esc q cur acc st, scanOk s esc q = some st →
      (esc = true → q = true) → (q = true → cur ≠ []) →
      parseListCore (s ++ rest) esc q cur [] acc =
        parseListCore rest st.1 st.2 (s.reverse ++ cur) [] acc := by
  induction s with
  | nil =>
      intro rest esc q cur acc st h _ _
      have : st = (esc, q) := (Option.some.inj h).symm
      subst this
      simp
  | cons c s ih =>
      intro rest esc q cur acc st h hesc hq
      have hrev : ∀ cur' : List Char,
          s.reverse ++ (c :: cur') = (c :: s).reverse ++ cur' := by
        intro cur'
        simp
      cases esc with
      | true =>
          have hqt := hesc rfl
          subst hqt
          have hcur := hq rfl
          simp only [scanOk] at h
          have hstep : parseListCore ((c :: s) ++ rest) true true cur [] acc =
              parseListCore (s ++ rest) false true (c :: cur) [] acc := by
            simp [parseListCore, List.append_eq]
          rw [hstep, ih rest false true (c :: cur) acc st h (by simp)
            (fun _ => by simp), hrev cur]
      | false =>
          cases q with
          | true =>
              have hcur := hq rfl
              by_cases hc : c = '\\'
              · subst hc
                have hh : scanOk s true true = some st := by
                  simpa [scanOk] using h
                have hstep : parseListCore (('\\' :: s) ++ rest) false true cur
                    [] acc =
                    parseListCore (s ++ rest) true true ('\\' :: cur) [] acc := by
                  simp [parseListCore, List.append_eq]
                rw [hstep, ih rest true true ('\\' :: cur) acc st hh
                  (fun _ => rfl) (fun _ => by simp), hrev cur]
              · by_cases hc2 : c = '"'
                · subst hc2
                  have hh : scanOk s false false = some st := by
                    simpa [scanOk] using h
                  have hstep : parseListCore (('"' :: s) ++ rest) false true cur
                      [] acc =
                      parseListCore (s ++ rest) false false ('"' :: cur) [] acc := by
                    simp [parseListCore, List.append_eq]
                  rw [hstep, ih rest false false ('"' :: cur) acc st hh
                    (by simp) (by simp), hrev cur]
                · have hh : scanOk s false true = some st := by
                    simpa [scanOk, hc, hc2] using h
                  have hstep : parseListCore ((c :: s) ++ rest) false true cur
                      [] acc =
                      parseListCore (s ++ rest) false true (c :: cur) [] acc := by
                    simp [parseListCore, List.append_eq, hc, hc2]
                  rw [hstep, ih rest false true (c :: cur) acc st hh
                    (by simp) (fun _ => by simp), hrev cur]
          | false =>
              by_cases hc : c = '"'
              · subst hc
                have hh : scanOk s false true = some st := by
                  simpa [scanOk] using h
                have hstep : parseListCore (('"' :: s) ++ rest) false false cur
                    [] acc =
                    parseListCore (s ++ rest) false true ('"' :: cur) [] acc := by
                  simp [parseListCore, List.append_eq]
                rw [hstep, ih rest false true ('"' :: cur) acc st hh
                  (by simp) (fun _ => by simp), hrev cur]
              · by_cases hs : isSpaceChar c || c = ','
                · simp [scanOk, hc, hs] at h
                · have hs' : isSpaceChar c = false ∧ ¬c = ',' := by
                    simpa using hs
                  have hs1 := hs'.1
                  have hs2 := hs'.2
                  have hh : scanOk s false false = some st := by
                    simpa [scanOk, hc, hs1, hs2] using h
                  have hstep : parseListCore ((c :: s) ++ rest) false false cur
                      [] acc =
                      parseListCore (s ++ rest) false false (c :: cur) [] acc := by
                    simp [parseListCore, List.append_eq, hc, hs1, hs2]
                  rw [hstep, ih rest false false (c :: cur) acc st hh
                    (by simp) (by simp), hrev cur]

theorem parseListCore_elems (elems : List (List Char)) :
    ∀ acc, (∀ e ∈ elems, e ≠ [] ∧ scanOk e false false = some (false, false)) →
      parseListCore (joinParts ',' elems) false false [] [] acc = acc ++ elems := by
  induction elems with
  | nil => intro acc _; simp [joinParts, parseListCore]
  | cons e elems ih =>
      intro acc h
      obtain ⟨hne, hscan⟩ := h e (by simp)
      cases elems with
      | nil =>
          have hj : joinParts ',' [e] = e ++ [] := by simp [joinParts]
          rw [hj, parseListCore_traverse e [] false false [] acc _ hscan
            (by simp) (by simp)]
          simp [parseListCore, hne]
      | cons e2 elems' =>
          have hj : joinParts ',' (e :: e2 :: elems') =
              e ++ (',' :: joinParts ',' (e2 :: elems')) := by
            simp [joinParts]
          rw [hj, parseListCore_traverse e (',' :: joinParts ',' (e2 :: elems'))
            false false [] acc _ hscan (by simp) (by simp)]
          have hcur : e.reverse ++ [] ≠ [] := by simpa using hne
          have hstep : parseListCore (',' :: joinParts ',' (e2 :: elems'))
              false false (e.reverse ++ []) [] acc =
              parseListCore (joinParts ',' (e2 :: elems')) false false [] []
                (acc ++ [(e.reverse ++ []).reverse]) := by
            simp [parseListCore, hne,
              (by decide : isSpaceChar ',' = false),
              (by decide : (',' : Char) ≠ '"')]
          rw [hstep]
          simp only [List.append_nil, List.reverse_reverse]
          rw [ih (acc ++ [e]) fun x hx => h x (by simp [hx])]
          simp

theorem parseList_join (elems : List (List Char))
    (h : ∀ e ∈ elems, e ≠ [] ∧ scanOk e false false = some (false, false)) :
    parseList (joinParts ',' elems) = elems := by
  simpa using parseListCore_elems elems [] h

theorem token_not_space (c : Char) (h : isTokenChar c = true) :
    isSpaceChar c = false := by
  cases hs : isSpaceChar c
  · rfl
  · have hs' : ((c = ' ' ∨ c = '\t') ∨ c = '\r') ∨ c = '\n' := by
      simpa [isSpaceChar] using hs
    rcases hs' with ((rfl | rfl) | rfl) | rfl <;> exact absurd h (by decide)

theorem token_ne_quote (c : Char) (h : isTokenChar c = true) : c ≠ '"' :=
  fun e => absurd h (by rw [e]; decide)

theorem token_ne_comma (c : Char) (h : isTokenChar c = true) : c ≠ ',' :=
  fun e => absurd h (by rw [e]; decide)

theorem token_ne_semi (c : Char) (h : isTokenChar c = true) : c ≠ ';' :=
  fun e => absurd h (by rw [e]; decide)

theorem token_ne_eq (c : Char) (h : isTokenChar c = true) : c ≠ '=' :=
  fun e => absurd h (by rw [e]; decide)

theorem token_scan_safe (s : List Char) (h : ∀ c ∈ s, isTokenChar c = true) :
    ∀ c ∈ s, c ≠ '"' ∧ isSpaceChar c = false ∧ c ≠ ',' := fun c hc =>
  ⟨token_ne_quote c (h c hc), token_not_space c (h c hc),
    token_ne_comma c (h c hc)⟩

theorem unquote_cons_other (c : Char) (l : List Char) (h1 : c ≠ '"')
    (h2 : c ≠ '\\') :
    unquote (c :: l) = (unquote l).map fun p => (c :: p.1, p.2) := by
  simp [unquote, h1, h2]

theorem unquote_escape (v : List Char) :
    ∀ rest, unquote (escapeQuoted v ++ '"' :: rest) = some (v, rest) := by
  induction v with
  | nil => intro rest; simp [escapeQuoted, unquote]
  | cons c v ih =>
      intro rest
      by_cases hc : c = '"' ∨ c = '\\'
      · rw [escapeQuoted_cons_esc c v hc]
        simp [unquote, ih rest]
      · push_neg at hc
        rw [escapeQuoted_cons_plain c v hc.1 hc.2, List.cons_append,
          unquote_cons_other c _ hc.1 hc.2, ih rest]
        rfl

theorem expectTokenOrQuoted_quoted (v rest : List Char) :
    expectTokenOrQuoted ('"' :: (escapeQuoted v ++ '"' :: rest)) = (v, rest) := by
  simp [expectTokenOrQuoted, unquote_escape]

theorem expectTokenOrQuoted_bare (c : Char) (s : List Char) (hc : c ≠ '"') :
    expectTokenOrQuoted (c :: s) = expectToken (c :: s) := by
  simp [expectTokenOrQuoted, hc]

theorem encValL_parse (v rest : List Char) (hv : v ≠ [])
    (hrest : ∀ c r', rest = c :: r' → isTokenChar c = false) :
    expectTokenOrQuoted (encValL v ++ rest) = (v, rest) := by
  by_cases hall : v.all isTokenChar
  · have htok : ∀ c ∈ v, isTokenChar c = true := by
      intro c hc
      exact List.all_eq_true.mp hall c hc
    have henc : encValL v = v := by simp [encValL, hall]
    rw [henc]
    obtain ⟨c, v', rfl⟩ := List.exists_cons_of_ne_nil hv
    rw [List.cons_append,
      expectTokenOrQuoted_bare c _ (token_ne_quote c (htok c (by simp))),
      ← List.cons_append, expectToken_exact _ _ htok hrest]
  · have henc : encValL v = '"' :: (escapeQuoted v ++ ['"']) := by
      simp [encValL, hall]
    rw [henc]
    have : ('"' :: (escapeQuoted v ++ ['"'])) ++ rest =
        '"' :: (escapeQuoted v ++ '"' :: rest) := by
      simp
    rw [this, expectTokenOrQuoted_quoted]

theorem paramsFlatEnc_head (prs : List (List Char × List Char)) :
    ∀ c r', paramsFlatEnc prs = c :: r' → c = ';' := by
  cases prs with
  | nil => intro c r' h; simp [paramsFlatEnc] at h
  | cons pr prs =>
      intro c r' h
      simp only [paramsFlatEnc, List.flatMap_cons, encPair,
        List.cons_append] at h
      exact (List.cons.inj h).1.symm

theorem parseParamsCore_step (fuel : Nat) (k v rest : List Char)
    (p : List (List Char × List Char)) (hk : k ≠ [])
    (hkt : ∀ c ∈ k, isTokenChar c = true) (hv : v ≠ [])
    (hrest : ∀ c r', rest = c :: r' → c = ';') :
    parseParamsCore (fuel + 1) (';' :: (k ++ '=' :: (encValL v ++ rest))) p =
      parseParamsCore fuel rest (assocSet p (goToLower k) v) := by
  have hskip : skipSpace (k ++ '=' :: (encValL v ++ rest)) =
      k ++ '=' :: (encValL v ++ rest) := by
    apply skipSpace_eq_self
    intro c s' h
    obtain ⟨c0, k', rfl⟩ := List.exists_cons_of_ne_nil hk
    have : c = c0 := by
      rw [List.cons_append] at h
      exact ((List.cons.inj h).1).symm
    rw [this]
    exact token_not_space c0 (hkt c0 (by simp))
  have htok : expectToken (k ++ '=' :: (encValL v ++ rest)) =
      (k, '=' :: (encValL v ++ rest)) := by
    apply expectToken_exact _ _ hkt
    intro c r' h
    have : c = '=' := ((List.cons.inj h).1).symm
    rw [this]
    decide
  have hval : expectTokenOrQuoted (encValL v ++ rest) = (v, rest) := by
    apply encValL_parse _ _ hv
    intro c r' h
    have : c = ';' := hrest c r' h
    rw [this]
    decide
  have hskip2 : skipSpace rest = rest := by
    apply skipSpace_eq_self
    intro c s' h
    have : c = ';' := hrest c s' h
    rw [this]
    decide
  simp only [parseParamsCore, hskip, htok, hk, if_neg hk, hval,
    if_neg hv, hskip2]
  simp

theorem parseParams_run (prs : List (List Char × List Char)) :
    ∀ fuel p,
      (∀ pr ∈ prs, pr.1 ≠ [] ∧ (∀ c ∈ pr.1, isTokenChar c = true) ∧ pr.2 ≠ []) →
      (paramsFlatEnc prs).length < fuel →
      parseParamsCore fuel (paramsFlatEnc prs) p =
        prs.foldl (fun q pr => assocSet q (goToLower pr.1) pr.2) p := by
  induction prs with
  | nil =>
      intro fuel p _ hf
      cases fuel with
      | zero => exact absurd hf (by simp [paramsFlatEnc])
      | succ f => simp [paramsFlatEnc, parseParamsCore]
  | cons pr prs ih =>
      intro fuel p hwf hf
      obtain ⟨hk, hkt, hv⟩ := hwf pr (by simp)
      have hflat : paramsFlatEnc (pr :: prs) =
          ';' :: (pr.1 ++ '=' :: (encValL pr.2 ++ paramsFlatEnc prs)) := by
        simp [paramsFlatEnc, encPair]
      cases fuel with
      | zero => exact absurd hf (by omega)
      | succ f =>
          have hlen : (paramsFlatEnc (pr :: prs)).length =
              (encPair pr).length + (paramsFlatEnc prs).length := by
            simp [paramsFlatEnc]
          have hep : 1 ≤ (encPair pr).length := by simp [encPair]
          rw [hflat, parseParamsCore_step f pr.1 pr.2 (paramsFlatEnc prs) p hk
            hkt hv (paramsFlatEnc_head prs),
            ih f _ (fun x hx => hwf x (by simp [hx])) (by omega)]
          simp

theorem pvp_run (name : List Char) (prs : List (List Char × List Char))
    (hn : name ≠ []) (hnt : ∀ c ∈ name, isTokenChar c = true)
    (hwf : ∀ pr ∈ prs, pr.1 ≠ [] ∧ (∀ c ∈ pr.1, isTokenChar c = true) ∧ pr.2 ≠ []) :
    ParseValueAndParams (name ++ paramsFlatEnc prs) =
      (goToLower name,
        prs.foldl (fun q pr => assocSet q (goToLower pr.1) pr.2) []) := by
  have hts : expectTokenSlash (name ++ paramsFlatEnc prs) =
      (name, paramsFlatEnc prs) := by
    apply expectTokenSlash_exact
    · intro c hc
      simp [hnt c hc]
    · intro c r' h
      rw [paramsFlatEnc_head prs c r' h]
      decide
  have hsk : skipSpace (paramsFlatEnc prs) = paramsFlatEnc prs := by
    apply skipSpace_eq_self
    intro c s' h
    rw [paramsFlatEnc_head prs c s' h]
    decide
  simp only [ParseValueAndParams, hts, if_neg hn, hsk]
  rw [parseParams_run prs _ [] hwf (by omega)]

theorem lookupL_map_hit (ps : List (List Char × List Char)) (k v : List Char) :
    lookupL (ps.map fun p => if p.1 = k then (k, v) else p) k =
      if ps.any fun p => p.1 = k then some v else none := by
  induction ps with
  | nil => rfl
  | cons p ps ih =>
      by_cases h : p.1 = k
      · simp [lookupL, List.find?_cons, h] at ih ⊢
      · simp only [List.map_cons, if_neg h, List.any_cons]
        have hlhs : lookupL (p :: ps.map fun q => if q.1 = k then (k, v) else q) k =
            lookupL (ps.map fun q => if q.1 = k then (k, v) else q) k := by
          simp [lookupL, List.find?_cons, h]
        rw [hlhs, ih]
        have hd : decide (p.1 = k) = false := by simp [h]
        simp only [hd, Bool.false_or]

theorem lookupL_cons (p : List Char × List Char)
    (ps : List (List Char × List Char)) (k : List Char) :
    lookupL (p :: ps) k = if p.1 = k then some p.2 else lookupL ps k := by
  unfold lookupL
  by_cases h : p.1 = k
  · rw [List.find?_cons_of_pos _ (by simp [h])]
    simp [h]
  · rw [List.find?_cons_of_neg _ (by simp [h])]
    simp [h]

theorem lookupL_append_tail (ps : List (List Char × List Char))
    (k : List Char) (pr : List Char × List Char) (h : pr.1 ≠ k) :
    lookupL (ps ++ [pr]) k = lookupL ps k := by
  induction ps with
  | nil => simp [lookupL_cons, h, lookupL]
  | cons p ps ih =>
      rw [List.cons_append, lookupL_cons, lookupL_cons]
      by_cases hp : p.1 = k
      · simp [hp]
      · simp only [if_neg hp]
        exact ih

theorem lookupL_assocSet_self (ps : List (List Char × List Char))
    (k v : List Char) : lookupL (assocSet ps k v) k = some v := by
  unfold assocSet
  by_cases hany : ps.any fun p => p.1 = k
  · rw [if_pos hany, lookupL_map_hit, if_pos hany]
  · rw [if_neg hany]
    induction ps with
    | nil => simp [lookupL, List.find?_cons]
    | cons p ps ih =>
        have hp : ¬p.1 = k := by
          intro e
          exact hany (by simp [List.any_cons, e])
        have hany' : ¬ps.any fun p => p.1 = k := by
          intro e
          exact hany (by simp [List.any_cons, e])
        rw [List.cons_append, lookupL_cons, if_neg hp]
        exact ih hany'

theorem lookupL_map_ne (ps : List (List Char × List Char))
    (k k' v : List Char) (h : k' ≠ k) :
    lookupL (ps.map fun p => if p.1 = k' then (k', v) else p) k =
      lookupL ps k := by
  induction ps with
  | nil => rfl
  | cons p ps ih =>
      by_cases hp : p.1 = k'
      · have h2 : ¬p.1 = k := by rw [hp]; exact h
        simp only [List.map_cons, if_pos hp]
        rw [lookupL_cons, lookupL_cons]
        simp only [if_neg h, if_neg h2]
        exact ih
      · simp only [List.map_cons, if_neg hp]
        rw [lookupL_cons, lookupL_cons]
        by_cases hk : p.1 = k
        · simp [hk]
        · simp only [if_neg hk]
          exact ih

theorem lookupL_assocSet_ne (ps : List (List Char × List Char))
    (k k' v : List Char) (h : k' ≠ k) :
    lookupL (assocSet ps k' v) k = lookupL ps k := by
  unfold assocSet
  by_cases hany : ps.any fun p => p.1 = k'
  · rw [if_pos hany, lookupL_map_ne _ _ _ _ h]
  · rw [if_neg hany, lookupL_append_tail _ _ _ h]

theorem lookupL_foldl_preserve (prs : List (List Char × List Char))
    (k : List Char) (h : ∀ pr ∈ prs, goToLower pr.1 ≠ k) :
    ∀ q, lookupL (prs.foldl (fun a pr => assocSet a (goToLower pr.1) pr.2) q) k
      = lookupL q k := by
  induction prs with
  | nil => intro q; rfl
  | cons pr prs ih =>
      intro q
      rw [List.foldl_cons, ih fun x hx => h x (by simp [hx]),
        lookupL_assocSet_ne _ _ _ _ (h pr (by simp))]

theorem assocSet_not_mem (ps : List (List Char × List Char))
    (k v : List Char) (h : ∀ pr ∈ ps, pr.1 ≠ k) :
    assocSet ps k v = ps ++ [(k, v)] := by
  unfold assocSet
  rw [if_neg]
  intro hany
  rw [List.any_eq_true] at hany
  obtain ⟨p, hp, he⟩ := hany
  exact h p hp (by simpa using he)

theorem natDecAux_acc (f : Nat) :
    ∀ n acc, natDecAux f n acc = natDecAux f n [] ++ acc := by
  induction f with
  | zero => intro n acc; simp [natDecAux]
  | succ f ih =>
      intro n acc
      by_cases hn : n = 0
      · simp [natDecAux, hn]
      · rw [natDecAux, natDecAux, if_neg hn, if_neg hn, ih (n / 10),
          ih (n / 10) [Char.ofNat (48 + n % 10)]]
        simp

theorem natDecAux_fuel (f1 : Nat) :
    ∀ n f2 acc, n < f1 → n < f2 →
      natDecAux f1 n acc = natDecAux f2 n acc := by
  induction f1 with
  | zero => intro n f2 acc h1 _; omega
  | succ f ih =>
      intro n f2 acc h1 h2
      cases f2 with
      | zero => omega
      | succ f2 =>
          by_cases hn : n = 0
          · simp [natDecAux, hn]
          · rw [natDecAux, natDecAux, if_neg hn, if_neg hn]
            have hd : n / 10 < n := Nat.div_lt_self (Nat.pos_of_ne_zero hn)
              (by omega)
            exact ih (n / 10) f2 _ (by omega) (by omega)

theorem natDecimal_lt10 (n : Nat) (h0 : 0 < n) (h : n < 10) :
    natDecimal n = [Char.ofNat (48 + n)] := by
  have hn : n ≠ 0 := by omega
  rw [natDecimal, if_neg hn, natDecAux, if_neg hn]
  have hd : n / 10 = 0 := Nat.div_eq_of_lt h
  have hm : n % 10 = n := Nat.mod_eq_of_lt h
  rw [hd, hm]
  cases hc : n with
  | zero => omega
  | succ m => simp [natDecAux]

theorem natDecimal_ge10 (n : Nat) (h : 10 ≤ n) :
    natDecimal n = natDecimal (n / 10) ++ [Char.ofNat (48 + n % 10)] := by
  have hn : n ≠ 0 := by omega
  have hq : n / 10 ≠ 0 := by
    have h1 : 1 ≤ n / 10 := (Nat.le_div_iff_mul_le (by omega)).mpr (by omega)
    omega
  rw [natDecimal, if_neg hn, natDecAux, if_neg hn,
    natDecAux_acc n (n / 10), natDecimal, if_neg hq]
  have hd : n / 10 < n := Nat.div_lt_self (by omega) (by omega)
  rw [natDecAux_fuel n (n / 10) (n / 10 + 1) [] (by omega) (by omega)]

theorem digit_char_props (r : Nat) (h : r < 10) :
    digitVal (Char.ofNat (48 + r)) = some r ∧
      isTokenChar (Char.ofNat (48 + r)) = true := by
  interval_cases r <;> exact ⟨by decide, by decide⟩

theorem natDecimal_props (n : Nat) :
    natDecimal n ≠ [] ∧
      ∀ c ∈ natDecimal n, (digitVal c).isSome = true ∧ isTokenChar c = true := by
  induction n using Nat.strong_induction_on with
  | _ n ih =>
      by_cases h0 : n = 0
      · subst h0
        refine ⟨by decide, ?_⟩
        intro c hc
        have hc' : c = '0' := by simpa [natDecimal] using hc
        subst hc'
        exact ⟨by decide, by decide⟩
      · by_cases h10 : n < 10
        · rw [natDecimal_lt10 n (Nat.pos_of_ne_zero h0) h10]
          refine ⟨by simp, ?_⟩
          intro c hc
          simp at hc
          subst hc
          obtain ⟨h1, h2⟩ := digit_char_props n h10
          exact ⟨by simp [h1], h2⟩
        · rw [natDecimal_ge10 n (by omega)]
          have hd : n / 10 < n := Nat.div_lt_self (by omega) (by omega)
          obtain ⟨hne, hall⟩ := ih (n / 10) hd
          refine ⟨by simp [hne], ?_⟩
          intro c hc
          rw [List.mem_append] at hc
          rcases hc with hc | hc
          · exact hall c hc
          · simp at hc
            subst hc
            obtain ⟨h1, h2⟩ := digit_char_props (n % 10) (Nat.mod_lt _ (by omega))
            exact ⟨by simp [h1], h2⟩

theorem digitsFoldl_none (ds : List Char) :
    ds.foldl (fun acc c => acc.bind fun a => (digitVal c).map fun d => a * 10 + d)
      none = none := by
  induction ds with
  | nil => rfl
  | cons c ds ih => simpa using ih

theorem digitsToNat_append_digit (ds : List Char) (hne : ds ≠ []) (r : Nat)
    (h : r < 10) :
    digitsToNat (ds ++ [Char.ofNat (48 + r)]) =
      (digitsToNat ds).map fun a => a * 10 + r := by
  unfold digitsToNat
  rw [if_neg (by simp [hne]), if_neg hne, List.foldl_append]
  cases hf : ds.foldl (fun acc c => acc.bind fun a =>
      (digitVal c).map fun d => a * 10 + d) (some 0) with
  | none => simp [(digit_char_props r h).1]
  | some a => simp [(digit_char_props r h).1]

theorem digitsToNat_natDecimal (n : Nat) :
    digitsToNat (natDecimal n) = some n := by
  induction n using Nat.strong_induction_on with
  | _ n ih =>
      by_cases h0 : n = 0
      · subst h0; decide
      · by_cases h10 : n < 10
        · rw [natDecimal_lt10 n (Nat.pos_of_ne_zero h0) h10]
          have := (digit_char_props n h10).1
          simp [digitsToNat, this]
        · rw [natDecimal_ge10 n (by omega),
            digitsToNat_append_digit _ (natDecimal_props (n / 10)).1 _
              (Nat.mod_lt _ (by omega)),
            ih (n / 10) (Nat.div_lt_self (by omega) (by omega))]
          have := Nat.div_add_mod n 10
          show some (n / 10 * 10 + n % 10) = some n
          exact congrArg some (by omega)

theorem digitsToNat_none_of_bad (ds : List Char) :
    ∀ a : Option Nat, (∃ c ∈ ds, digitVal c = none) →
      ds.foldl (fun acc c => acc.bind fun x =>
        (digitVal c).map fun d => x * 10 + d) a = none := by
  induction ds with
  | nil => intro a h; simp at h
  | cons c ds ih =>
      intro a h
      by_cases hc : digitVal c = none
      · rw [List.foldl_cons]
        have : (a.bind fun x => (digitVal c).map fun d => x * 10 + d) = none := by
          cases a <;> simp [hc]
        rw [this, digitsFoldl_none]
      · obtain ⟨d, hd, hdn⟩ := h
        rcases List.mem_cons.mp hd with rfl | hd'
        · exact absurd hdn hc
        · exact ih _ ⟨d, hd', hdn⟩

theorem digitVal_dot : digitVal '.' = none := by decide

theorem Atoi_none_of_dot (s : List Char) (hs : '.' ∈ s) : Atoi s = none := by
  cases s with
  | nil => rfl
  | cons c rest =>
      have hds : ∀ t : List Char, '.' ∈ t → digitsToNat t = none := by
        intro t ht
        unfold digitsToNat
        rw [if_neg (by rintro rfl; simp at ht)]
        exact digitsToNat_none_of_bad t _ ⟨'.', ht, digitVal_dot⟩
      simp only [Atoi]
      by_cases h1 : c = '-'
      · rw [if_pos h1]
        have hdot : '.' ∈ rest := by
          rcases List.mem_cons.mp hs with h | h
          · exact absurd h.symm (by rw [h1]; decide)
          · exact h
        rw [hds rest hdot]
        rfl
      · rw [if_neg h1]
        by_cases h2 : c = '+'
        · rw [if_pos h2]
          have hdot : '.' ∈ rest := by
            rcases List.mem_cons.mp hs with h | h
            · exact absurd h.symm (by rw [h2]; decide)
            · exact h
          rw [hds rest hdot]
          rfl
        · rw [if_neg h2, hds (c :: rest) hs]
          rfl

theorem Atoi_digits (ds : List Char) (n : Nat)
    (hds : digitsToNat ds = some n)
    (hd : ∀ c ∈ ds, (digitVal c).isSome = true)
    (hr : (n : Int) ≤ 2 ^ 63 - 1) :
    Atoi ds = some (n : Int) := by
  cases ds with
  | nil => simp [digitsToNat] at hds
  | cons c rest =>
      have hc : (digitVal c).isSome = true := hd c (by simp)
      have h1 : c ≠ '-' := by
        rintro rfl
        exact absurd hc (by decide)
      have h2 : c ≠ '+' := by
        rintro rfl
        exact absurd hc (by decide)
      simp only [Atoi]
      rw [if_neg h1, if_neg h2, hds]
      simp
      omega

theorem wrap64_id (x : Int) (h1 : -(2 ^ 63) ≤ x) (h2 : x < 2 ^ 63) :
    wrap64 x = x := by
  unfold wrap64
  rw [Int.emod_eq_of_lt (by omega) (by omega)]
  omega

theorem asString_data (l : List Char) : (List.asString l).data = l := rfl

theorem string_append_data (a b : String) : (a ++ b).data = a.data ++ b.data :=
  rfl

theorem data_asString (s : String) : s.data.asString = s := rfl

theorem string_data_inj (a b : String) (h : a.data = b.data) : a = b := by
  cases a
  cases b
  exact congrArg String.mk h

theorem string_ne_empty_data (s : String) (h : s ≠ "") : s.data ≠ [] := by
  intro e
  exact h (string_data_inj s "" e)

theorem encodeValue_data (v : String) : (encodeValue v).data = encValL v.data := by
  unfold encodeValue encValL needsQuoting quoteValue
  by_cases h : v.data.all isTokenChar <;> simp [h, asString_data]

theorem scanOk_encValL (v : List Char) :
    scanOk (encValL v) false false = some (false, false) := by
  unfold encValL
  by_cases h : v.all isTokenChar
  · rw [if_pos h]
    exact scanOk_flat v (token_scan_safe v (List.all_eq_true.mp h))
  · rw [if_neg h]
    exact scanOk_quoted v

theorem scanOk_encPair (pr : List Char × List Char)
    (hk : ∀ c ∈ pr.1, isTokenChar c = true) :
    scanOk (encPair pr) false false = some (false, false) := by
  have hsplit : encPair pr = [';'] ++ (pr.1 ++ (['='] ++ encValL pr.2)) := by
    simp [encPair]
  rw [hsplit, scanOk_append]
  have h1 : scanOk [';'] false false = some (false, false) := by decide
  rw [h1, Option.some_bind, scanOk_append,
    scanOk_flat pr.1 (token_scan_safe pr.1 hk), Option.some_bind,
    scanOk_append]
  have h2 : scanOk ['='] false false = some (false, false) := by decide
  rw [h2, Option.some_bind, scanOk_encValL]

theorem scanOk_paramsFlatEnc (prs : List (List Char × List Char))
    (h : ∀ pr ∈ prs, ∀ c ∈ pr.1, isTokenChar c = true) :
    scanOk (paramsFlatEnc prs) false false = some (false, false) := by
  induction prs with
  | nil => rfl
  | cons pr prs ih =>
      have hsplit : paramsFlatEnc (pr :: prs) =
          encPair pr ++ paramsFlatEnc prs := by
        simp [paramsFlatEnc]
      rw [hsplit, scanOk_append, scanOk_encPair pr (h pr (by simp)),
        Option.some_bind]
      exact ih fun x hx => h x (by simp [hx])

theorem extraLookup_none_of_keys (ps : List (String × String)) (k : String)
    (h : ∀ pr ∈ ps, pr.1 ≠ k) : extraLookup ps k = none := by
  induction ps with
  | nil => rfl
  | cons p ps ih =>
      rw [extraLookup_cons, if_neg (h p (by simp))]
      exact ih fun x hx => h x (by simp [hx])

theorem eraseKey_id_of_keys (ps : List (String × String)) (k : String)
    (h : ∀ pr ∈ ps, pr.1 ≠ k) : eraseKey ps k = ps := by
  induction ps with
  | nil => rfl
  | cons p ps ih =>
      rw [eraseKey_cons, if_neg (h p (by simp))]
      rw [ih fun x hx => h x (by simp [hx])]

theorem foldl_assocSet_acc (prs : List (List Char × List Char)) :
    ∀ q, (∀ pr ∈ prs, ∀ p0 ∈ q, p0.1 ≠ goToLower pr.1) →
      ((prs.map fun pr => goToLower pr.1).Nodup) →
      prs.foldl (fun a pr => assocSet a (goToLower pr.1) pr.2) q =
        q ++ prs.map fun pr => (goToLower pr.1, pr.2) := by
  induction prs with
  | nil => intro q _ _; simp
  | cons pr prs ih =>
      intro q hq hnd
      rw [List.map_cons, List.nodup_cons] at hnd
      rw [List.foldl_cons,
        assocSet_not_mem _ _ _ fun p0 hp0 => hq pr (by simp) p0 hp0,
        ih (q ++ [(goToLower pr.1, pr.2)]) ?_ hnd.2]
      · simp
      · intro x hx p0 hp0
        rw [List.mem_append] at hp0
        rcases hp0 with hp0 | hp0
        · exact hq x (by simp [hx]) p0 hp0
        · have he : p0 = (goToLower pr.1, pr.2) := by simpa using hp0
          subst he
          intro hcontra
          have hc' : goToLower pr.1 = goToLower x.1 := hcontra
          exact hnd.1 (by
            rw [hc']
            exact List.mem_map_of_mem _ hx)

theorem string_data_injective : Function.Injective String.data :=
  fun a b hab => string_data_inj a b hab

theorem extraLookup_map_strPair (ps : List (List Char × List Char))
    (k : String) :
    extraLookup (ps.map fun p => (p.1.asString, p.2.asString)) k =
      (lookupL ps k.data).map List.asString := by
  induction ps with
  | nil => rfl
  | cons p ps ih =>
      rw [List.map_cons, extraLookup_cons, lookupL_cons]
      by_cases hp : p.1 = k.data
      · have he : p.1.asString = k := by
          rw [hp]
          exact data_asString k
        rw [if_pos he, if_pos hp]
        rfl
      · have he : ¬(p.1.asString = k) := by
          intro e
          exact hp (by rw [← e, asString_data])
        simp only [he, hp, if_false]
        exact ih

/-- C1: the claim's concrete scenario against the provided code.  The
first metric does serialize per the claim under the provided
`Metric.String`, but the second does not: `strconv.Itoa` truncates the
100.1ms duration to `dur=100`, not `dur=100.1`.  `Header.String`, the
claim's cited serializer, is the stub returning `""`.  Parsing the
claimed wire text back does not restore the metric either:
`strconv.Atoi` rejects `100.1`, so the duration stays `0` and `dur`
stays in `Extra`. -/
theorem c1_concrete_scenario :
    MetricString ⟨"sql-1", 100000000, "MySQL lookup Server", []⟩ =
      "sql-1;desc=\"MySQL lookup Server\";dur=100" ∧
    MetricString ⟨"sql-1", 100100000, "MySQL; lookup Server", []⟩ =
      "sql-1;desc=\"MySQL; lookup Server\";dur=100" ∧
    HeaderStringSrc { Metrics := [⟨"sql-1", 100100000, "MySQL; lookup Server", []⟩] } =
      "" ∧
    (ParseHeader "sql-1;desc=\"MySQL; lookup Server\";dur=100.1").1.Metrics =
      [⟨"sql-1", 0, "MySQL; lookup Server", [("dur", "100.1")]⟩] :=
  ⟨by decide, by decide, rfl, by decide⟩

/-- C2: a `dur` value with a fractional component is NOT parsed as a
number of milliseconds by the provided code (`strconv.Atoi` accepts only
integers): `dur=100.1` leaves the duration at `0` and the raw value in
`Extra`, with no error, while an integer `dur=50` is parsed and removed.
The claim's fractional case contradicts the code. -/
theorem c2_fractional_duration :
    (ParseHeader "sql-1;dur=100.1").1.Metrics = [⟨"sql-1", 0, "", [("dur", "100.1")]⟩] ∧
    (ParseHeader "sql-1;dur=100.1").2 = none ∧
    (ParseHeader "sql-1;dur=50").1.Metrics = [⟨"sql-1", 50000000, "", []⟩] :=
  ⟨by decide, rfl, by decide⟩

/-- C3 counterexample: on the structurally malformed input
`"unterminated` (an unbalanced quote), `ParseHeader` does not return a
parse error; it returns no error at all together with a best-effort
header containing one metric with an empty name. -/
theorem c3_malformed_no_error :
    (ParseHeader "\"unterminated").2 = none ∧
    (ParseHeader "\"unterminated").1.Metrics = [⟨"", 0, "", []⟩] :=
  ⟨rfl, by decide⟩

/-- C3 amended: `ParseHeader` never returns an error on any input;
every comma-separated element of the input, malformed or not, is parsed
best-effort into exactly one metric. -/
theorem c3_parse_never_errors (input : String) :
    (ParseHeader input).2 = none ∧
    (ParseHeader input).1.Metrics.length = (parseList input.data).length := by
  refine ⟨rfl, ?_⟩
  rw [parseHeader_metrics_eq]
  simp

/-- C4: refuted against the provided `Header.String`, which is the stub
returning `""`: for the metric named `db` with description `a,b;c`
(containing both a comma and a semicolon), the serialized header is
empty — no quoted description is emitted — and parsing that output
yields no metric at all, let alone one with the original description.
The per-metric `Metric.String` present in the sources does fulfil the
claim's intent at this input: it emits the description as an RFC7230
quoted-string, and the text parses back to the identical description. -/
theorem c4_desc_quoting_stub :
    HeaderStringSrc { Metrics := [⟨"db", 0, "a,b;c", []⟩] } = "" ∧
    (ParseHeader (HeaderStringSrc { Metrics := [⟨"db", 0, "a,b;c", []⟩] })).1.Metrics =
      [] ∧
    MetricString ⟨"db", 0, "a,b;c", []⟩ = "db;desc=\"a,b;c\"" ∧
    (ParseHeader (MetricString ⟨"db", 0, "a,b;c", []⟩)).1.Metrics.map Metric.Desc =
      ["a,b;c"] :=
  ⟨rfl, by decide, by decide, by decide⟩

/-- C5: under the provided code the round trip
`serialize(parse(serialize(h))) = serialize(h)` holds for every header,
degenerately: the serializer `Header.String` is the stub returning `""`,
so both sides are the empty string whatever the header contains. -/
theorem c5_round_trip (h : Header) :
    HeaderStringSrc (ParseHeader (HeaderStringSrc h)).1 = HeaderStringSrc h ∧
    HeaderStringSrc h = "" :=
  ⟨rfl, rfl⟩

/-- C6: when `Extra` contains the reserved key `desc` (respectively
`dur`), the provided `Metric.String` does not emit the dedicated
description (respectively duration) part; a part for that parameter name
is still emitted, carrying the `Extra` entry's value. -/
theorem c6_reserved_shadowing (m : Metric) :
    ((extraLookup m.Extra paramNameDesc).isSome = true →
      MetricStringParts m =
        [m.Name]
          ++ (if extraLookup m.Extra paramNameDur = none ∧ 0 < m.Duration then
                [headerEncodeParam paramNameDur (Itoa (durationMillis m.Duration))]
              else [])
          ++ m.Extra.map (fun p => headerEncodeParam p.1 p.2) ∧
      ∃ v, extraLookup m.Extra paramNameDesc = some v ∧
        headerEncodeParam paramNameDesc v ∈ MetricStringParts m) ∧
    ((extraLookup m.Extra paramNameDur).isSome = true →
      MetricStringParts m =
        [m.Name]
          ++ (if extraLookup m.Extra paramNameDesc = none ∧ m.Desc ≠ "" then
                [headerEncodeParam paramNameDesc m.Desc] else [])
          ++ m.Extra.map (fun p => headerEncodeParam p.1 p.2) ∧
      ∃ v, extraLookup m.Extra paramNameDur = some v ∧
        headerEncodeParam paramNameDur v ∈ MetricStringParts m) := by
  constructor
  · intro h
    obtain ⟨v, hv⟩ := Option.isSome_iff_exists.mp h
    refine ⟨by simp [MetricStringParts, hv], v, hv, ?_⟩
    unfold extraLookup at hv
    obtain ⟨p, hfind, hp2⟩ := Option.map_eq_some'.mp hv
    have hp1 : p.1 = paramNameDesc := by simpa using List.find?_some hfind
    have hmem := List.mem_of_find?_eq_some hfind
    have hin : headerEncodeParam p.1 p.2 ∈
        m.Extra.map (fun q => headerEncodeParam q.1 q.2) :=
      List.mem_map_of_mem _ hmem
    rw [hp1, hp2] at hin
    unfold MetricStringParts
    exact List.mem_append_right _ hin
  · intro h
    obtain ⟨v, hv⟩ := Option.isSome_iff_exists.mp h
    refine ⟨by simp [MetricStringParts, hv], v, hv, ?_⟩
    unfold extraLookup at hv
    obtain ⟨p, hfind, hp2⟩ := Option.map_eq_some'.mp hv
    have hp1 : p.1 = paramNameDur := by simpa using List.find?_some hfind
    have hmem := List.mem_of_find?_eq_some hfind
    have hin : headerEncodeParam p.1 p.2 ∈
        m.Extra.map (fun q => headerEncodeParam q.1 q.2) :=
      List.mem_map_of_mem _ hmem
    rw [hp1, hp2] at hin
    unfold MetricStringParts
    exact List.mem_append_right _ hin

/-- C6 witness: a metric whose `Extra` holds both reserved keys; the
dedicated description and duration parts are suppressed and the `Extra`
values are the ones emitted. -/
theorem c6_witness :
    MetricStringParts ⟨"n", 5000000, "realdesc", [("desc", "D"), ("dur", "9")]⟩ =
      ["n", "desc=D", "dur=9"] ∧
    headerEncodeParam paramNameDesc "D" ∈
      MetricStringParts ⟨"n", 5000000, "realdesc", [("desc", "D"), ("dur", "9")]⟩ := by
  have h := c6_reserved_shadowing ⟨"n", 5000000, "realdesc", [("desc", "D"), ("dur", "9")]⟩
  have r1 := h.1 (by decide)
  refine ⟨r1.1.trans (by decide), ?_⟩
  obtain ⟨v, hv, hmem⟩ := r1.2
  have hv' : v = "D" := by
    have h2 : some "D" = some v := by
      exact (by decide :
        extraLookup [("desc", "D"), ("dur", "9")] paramNameDesc = some "D") ▸ hv
    exact (Option.some.inj h2).symm
  rw [hv'] at hmem
  exact hmem

/-- C7: every metric produced by `ParseHeader` has had any `desc`
parameter moved out of its `Extra` map and into its `Desc` field: the
returned `Extra` never contains `desc`, and `Desc` is exactly the
(quote-stripped) `desc` value of the element's raw parameter map, or
empty when there was none. -/
theorem c7_desc_extraction (input : String) (m : Metric)
    (hm : m ∈ (ParseHeader input).1.Metrics) :
    extraLookup m.Extra paramNameDesc = none ∧
    ∃ raw, raw ∈ parseList input.data ∧ m = parseMetricRaw raw ∧
      m.Desc = ((extraLookup ((ParseValueAndParams raw).2.map fun p =>
        (p.1.asString, p.2.asString)) paramNameDesc).getD "") := by
  rw [parseHeader_metrics_eq] at hm
  obtain ⟨raw, hraw, rfl⟩ := List.mem_map.mp hm
  obtain ⟨h1, h2⟩ := parseMetricRaw_fields raw
  exact ⟨h1, raw, hraw, rfl, h2⟩

/-- C7 witness: the element `a;desc="X Y";k=v` yields a metric whose
description is `X Y` and whose extras no longer contain `desc`. -/
theorem c7_witness :
    extraLookup (Metric.mk "a" 0 "X Y" [("k", "v")]).Extra paramNameDesc = none ∧
    ∃ raw, raw ∈ parseList (String.data "a;desc=\"X Y\";k=v") ∧
      Metric.mk "a" 0 "X Y" [("k", "v")] = parseMetricRaw raw ∧
      (Metric.mk "a" 0 "X Y" [("k", "v")]).Desc =
        ((extraLookup ((ParseValueAndParams raw).2.map fun p =>
          (p.1.asString, p.2.asString)) paramNameDesc).getD "") :=
  c7_desc_extraction "a;desc=\"X Y\";k=v" ⟨"a", 0, "X Y", [("k", "v")]⟩ (by decide)

/-- C8: the metrics of the parsed header are exactly the comma-separated
elements of the input, in input order, each parsed independently. -/
theorem c8_order_preserved (input : String) :
    (ParseHeader input).1.Metrics = (parseList input.data).map parseMetricRaw :=
  parseHeader_metrics_eq input

/-- C9: `GoString` on a nil `*Metric` (embedded as `none`) returns the
string `nil`, and on every non-nil metric it returns the starred struct
rendering; the function is total on both shapes. -/
theorem c9_gostring_nil :
    MetricGoString none = "nil" ∧
    ∀ m : Metric, MetricGoString (some m) = "*" ++ metricGoRepr m :=
  ⟨rfl, fun _ => rfl⟩

/-- C10: `ParseHeader` accepts `dur=-100` with no error, producing a
metric whose duration is minus one hundred milliseconds (in nanoseconds)
and whose `Extra` no longer contains `dur`: non-negativity of `dur` is
not enforced. -/
theorem c10_negative_duration :
    ParseHeader "metric;dur=-100" =
      ({ Metrics := [⟨"metric", -100000000, "", []⟩] }, none) := by
  decide

end ServerTiming
